import Mathlib

/-!
Verification of the hybrid document-search core of the repository:
`server/services/searchService.js` (index management, semantic/keyword/hybrid
search, highlighting) and `server/services/documentService.js`
(`EmbeddingService.splitIntoChunks`).

JavaScript strings are modelled as `List Char`, JS numbers as `ℚ`
(all the arithmetic performed by the code is exact at these magnitudes),
JS `Map` as an insertion-ordered association list, and calls into external
libraries (`Document.findById`, the BM25 ranker of `natural`, the query
embedding) as explicit parameters; a call that can reject is an
`Except String` parameter.  `faiss-node`'s `IndexFlatL2` is a brute-force
exact index over squared euclidean distance and is modelled concretely.
-/

/-- Whitespace test used by the model of `String.prototype.trim` and of
splitting on `/\s+/`. -/
def isWsChar (c : Char) : Bool :=
  c == ' ' || c == '\n' || c == '\t' || c == '\r'

/-- Model of `String.prototype.trim`: drop whitespace from both ends. -/
def trimChars (s : List Char) : List Char :=
  ((s.dropWhile isWsChar).reverse.dropWhile isWsChar).reverse

/-- `String.prototype.trim` on packed strings. -/
def trimStr (s : String) : String := String.mk (trimChars s.data)

/-- `startsWith pat s` holds when `pat` is an initial segment of `s`. -/
def startsWith : List Char → List Char → Bool
  | [], _ => true
  | _ :: _, [] => false
  | p :: ps, c :: cs => p == c && startsWith ps cs

/-- Model of `query.toLowerCase().split(/\s+/)` (empty fragments dropped;
the code filters all fragments of length ≤ 2 anyway). -/
def splitWsAux : List Char → List Char → List (List Char)
  | [], cur => if cur.isEmpty then [] else [cur.reverse]
  | c :: rest, cur =>
    if isWsChar c then
      if cur.isEmpty then splitWsAux rest [] else cur.reverse :: splitWsAux rest []
    else splitWsAux rest (c :: cur)

def splitWsChars (s : List Char) : List (List Char) :=
  splitWsAux s []

/-- Model of `String.prototype.lastIndexOf(pat, fromIdx)`: the largest
start position `≤ fromIdx` at which `pat` occurs in `text`, `-1` when there
is none (JS semantics, including a pattern occurrence begun at `fromIdx`). -/
def lastIndexOf (text pat : List Char) (fromIdx : Nat) : Int :=
  match ((List.range (fromIdx + 1)).filter
      (fun i => startsWith pat (text.drop i))).getLast? with
  | some i => (i : Int)
  | none => -1

/-! ## Chunker: `EmbeddingService.splitIntoChunks` (documentService.js 267-301)

The `EmbeddingService` constructor sets `this.chunkSize = 1000` and
`this.chunkOverlap = 200`; the two values are modelled as parameters
`cs`/`ov` so that the spec's quantification over them can be stated. -/

structure Chunk where
  text : String
  startIndex : Nat
  endIndex : Nat
deriving DecidableEq, Repr

/-- One iteration's `chunkEnd`: the raw window end
`min (startIndex + chunkSize) text.length`, moved to just after the last
sentence terminator `'.'` or paragraph break `"\n\n"` found at or before it
whenever that break point lies beyond `startIndex + chunkSize * 0.5`. -/
def chunkEndAt (cs : Nat) (text : List Char) (start : Nat) : Nat :=
  let endIndex := min (start + cs) text.length
  if endIndex < text.length then
    let lastSentenceEnd := lastIndexOf text ['.'] endIndex
    let lastParagraphEnd := lastIndexOf text ['\n', '\n'] endIndex
    let breakPoint := max lastSentenceEnd lastParagraphEnd
    if (breakPoint : ℚ) > (start : ℚ) + (cs : ℚ) * (1 / 2 : ℚ) then
      (breakPoint + 1).toNat
    else endIndex
  else endIndex

/-- The `while (startIndex < text.length)` loop of `splitIntoChunks`:
emit the trimmed window (when non-empty) and advance the start to
`max (chunkEnd - overlap) (startIndex + 1)`.

The loop terminates because the start index strictly increases while staying
below `text.length`, so it runs at most `text.length` iterations; the `fuel`
argument (instantiated with `text.length`) makes that bound structural.
`splitGo_fuel_irrelevant` below proves the fuel never runs out, i.e. the
function computes the limit of the loop, not a truncation of it. -/
def splitGo (cs ov : Nat) (text : List Char) : Nat → Nat → List Chunk
  | 0, _ => []
  | fuel + 1, start =>
    if start < text.length then
      let chunkEnd := chunkEndAt cs text start
      let chunkText := trimChars ((text.drop start).take (chunkEnd - start))
      (if chunkText.length > 0 then
          [{ text := String.mk chunkText, startIndex := start, endIndex := chunkEnd }]
        else []) ++
        splitGo cs ov text fuel (max (chunkEnd - ov) (start + 1))
    else []

/-- `EmbeddingService.splitIntoChunks` with chunk size `cs` and overlap `ov`
(the service instance uses `cs = 1000`, `ov = 200`). -/
def splitIntoChunks (cs ov : Nat) (text : List Char) : List Chunk :=
  splitGo cs ov text text.length 0

/-- Any fuel of at least `text.length - start` computes the same result:
the loop genuinely terminates within that many iterations. -/
theorem splitGo_fuel_irrelevant (cs ov : Nat) (text : List Char) :
    ∀ f₁ f₂ start, text.length ≤ f₁ + start → text.length ≤ f₂ + start →
      splitGo cs ov text f₁ start = splitGo cs ov text f₂ start := by
  intro f₁
  induction f₁ with
  | zero =>
    intro f₂ start h₁ h₂
    cases f₂ with
    | zero => rfl
    | succ g =>
      simp only [splitGo]
      rw [if_neg (by omega)]
  | succ f ih =>
    intro f₂ start h₁ h₂
    cases f₂ with
    | zero =>
      simp only [splitGo]
      rw [if_neg (by omega)]
    | succ g =>
      simp only [splitGo]
      by_cases hs : start < text.length
      · rw [if_pos hs, if_pos hs]
        have hmax : start + 1 ≤ max (chunkEndAt cs text start - ov) (start + 1) :=
          Nat.le_max_right _ _
        rw [ih g (max (chunkEndAt cs text start - ov) (start + 1))
          (by omega) (by omega)]
      · rw [if_neg hs, if_neg hs]

/-! ## Chunker lemmas and claims C5-C7 -/

theorem trimChars_length_le (s : List Char) : (trimChars s).length ≤ s.length := by
  unfold trimChars
  have h1 : ((s.dropWhile isWsChar).reverse.dropWhile isWsChar).length ≤
      (s.dropWhile isWsChar).reverse.length :=
    (List.dropWhile_sublist _).length_le
  have h2 : (s.dropWhile isWsChar).length ≤ s.length :=
    (List.dropWhile_sublist _).length_le
  simpa using le_trans h1 (by simpa using h2)

theorem lastIndexOf_le (text pat : List Char) (fromIdx : Nat) :
    lastIndexOf text pat fromIdx ≤ (fromIdx : Int) := by
  unfold lastIndexOf
  cases h : ((List.range (fromIdx + 1)).filter
      (fun i => startsWith pat (text.drop i))).getLast? with
  | none => show (-1 : Int) ≤ (fromIdx : Int); omega
  | some i =>
    show (i : Int) ≤ (fromIdx : Int)
    have hi : i ∈ (List.range (fromIdx + 1)).filter
        (fun i => startsWith pat (text.drop i)) :=
      List.mem_of_getLast?_eq_some h
    have : i ∈ List.range (fromIdx + 1) := List.mem_of_mem_filter hi
    have := List.mem_range.mp this
    omega

theorem chunkEndAt_le (cs : Nat) (text : List Char) (start : Nat) :
    chunkEndAt cs text start ≤ start + cs + 1 := by
  simp only [chunkEndAt]
  by_cases h : min (start + cs) text.length < text.length
  · rw [if_pos h]
    split
    · have h1 := lastIndexOf_le text ['.'] (min (start + cs) text.length)
      have h2 := lastIndexOf_le text ['\n', '\n'] (min (start + cs) text.length)
      omega
    · omega
  · rw [if_neg h]
    omega

/-- Every chunk pushed by an iteration has trimmed text of length at most
`chunkEnd - start ≤ chunkSize + 1`. -/
theorem splitGo_text_length (cs ov : Nat) (text : List Char) :
    ∀ fuel start c, c ∈ splitGo cs ov text fuel start → c.text.length ≤ cs + 1 := by
  intro fuel
  induction fuel with
  | zero => intro start c hc; simp [splitGo] at hc
  | succ f ih =>
    intro start c hc
    simp only [splitGo] at hc
    by_cases hs : start < text.length
    · rw [if_pos hs] at hc
      rcases List.mem_append.mp hc with hhd | htl
      · by_cases hne :
          (trimChars ((text.drop start).take (chunkEndAt cs text start - start))).length > 0
        · rw [if_pos hne] at hhd
          rcases List.mem_singleton.mp hhd with rfl
          show (String.mk _).length ≤ cs + 1
          have h1 := trimChars_length_le
            ((text.drop start).take (chunkEndAt cs text start - start))
          have h2 : ((text.drop start).take (chunkEndAt cs text start - start)).length ≤
              chunkEndAt cs text start - start := by
            simpa using List.length_take_le _ _
          have h3 := chunkEndAt_le cs text start
          show (trimChars _).length ≤ cs + 1
          omega
        · rw [if_neg hne] at hhd
          simp at hhd
      · exact ih _ c htl
    · rw [if_neg hs] at hc
      simp at hc

theorem splitGo_length_le (cs ov : Nat) (text : List Char) :
    ∀ fuel start, (splitGo cs ov text fuel start).length ≤ text.length - start := by
  intro fuel
  induction fuel with
  | zero => intro start; simp [splitGo]
  | succ f ih =>
    intro start
    simp only [splitGo]
    by_cases hs : start < text.length
    · rw [if_pos hs]
      have hnext := ih (max (chunkEndAt cs text start - ov) (start + 1))
      have hmax : start + 1 ≤ max (chunkEndAt cs text start - ov) (start + 1) :=
        Nat.le_max_right _ _
      by_cases hne :
          (trimChars ((text.drop start).take (chunkEndAt cs text start - start))).length > 0
      · rw [if_pos hne]
        simp only [List.length_append, List.length_singleton]
        omega
      · rw [if_neg hne]
        simp only [List.length_append, List.length_nil]
        omega
    · rw [if_neg hs]
      simp

/-- C5: the spec says a non-empty text shorter than `chunkSize` yields exactly
one chunk (and the empty text zero chunks).  The loop instead keeps running
after the chunk end has reached the end of the text — the start advances by
`max (chunkEnd - overlap, start + 1) = start + 1` there — so the 5-character
text "hello" (chunkSize 1000, overlap 200) produces five chunks, the full text
followed by its proper suffixes.  The empty-text half of the claim does hold. -/
theorem splitIntoChunks_short_text_chunks :
    (splitIntoChunks 1000 200 ("hello".data)).map (fun c => c.text)
      = ["hello", "ello", "llo", "lo", "o"] ∧
    (splitIntoChunks 1000 200 ("hello".data)).length ≠ 1 ∧
    splitIntoChunks 1000 200 ([] : List Char) = [] :=
  ⟨by decide, by decide, by decide⟩

/-- C6: for every `chunkSize ≥ 1` and overlap, chunking terminates — any fuel
beyond `text.length` computes the same list — and produces at most
`text.length` chunks. -/
theorem splitIntoChunks_terminates (cs ov : Nat) (text : List Char)
    (_hcs : 1 ≤ cs) :
    (splitIntoChunks cs ov text).length ≤ text.length ∧
    ∀ extra, splitGo cs ov text (text.length + extra) 0 = splitIntoChunks cs ov text := by
  constructor
  · simpa using splitGo_length_le cs ov text text.length 0
  · intro extra
    exact splitGo_fuel_irrelevant cs ov text _ _ 0 (by omega) (by omega)

theorem splitIntoChunks_terminates_witness :
    (splitIntoChunks 1000 200 ("ab".data)).length ≤ ("ab".data).length :=
  (splitIntoChunks_terminates 1000 200 ("ab".data) (by decide)).1

/-- The claim that every chunk's text has length at most `chunkSize`,
exactly as stated. -/
def chunkSizeBoundClaim : Prop :=
  ∀ (cs ov : Nat) (text : List Char),
    ∀ c ∈ splitIntoChunks cs ov text, c.text.length ≤ cs

unseal Rat.add Rat.mul Rat.sub Rat.inv Rat.ofScientific in
/-- C7 counterexample: `text.lastIndexOf('.', endIndex)` can return `endIndex`
itself (when the character at the window boundary is a period), and the cut
then sets `chunkEnd = breakPoint + 1 = endIndex + 1`, one character beyond the
raw window.  With chunkSize 4 and overlap 0 on "abcd.xyzw" the first chunk is
"abcd." of length 5 > 4. -/
theorem chunkSizeBoundClaim_false : ¬ chunkSizeBoundClaim := by
  intro h
  have hm : (Chunk.mk "abcd." 0 5) ∈ splitIntoChunks 4 0 ("abcd.xyzw".data) := by
    decide
  exact absurd (h 4 0 ("abcd.xyzw".data) _ hm) (by decide)

/-- C7 amended: the sentence-boundary cut can move the window end one past the
raw boundary (never further), so every emitted chunk's text has length at most
`chunkSize + 1`. -/
theorem chunk_text_length_le (cs ov : Nat) (text : List Char) :
    ∀ c ∈ splitIntoChunks cs ov text, c.text.length ≤ cs + 1 :=
  fun c hc => splitGo_text_length cs ov text text.length 0 c hc

unseal Rat.add Rat.mul Rat.sub Rat.inv Rat.ofScientific in
theorem chunk_text_length_le_witness :
    (Chunk.mk "abcd." 0 5).text.length ≤ 4 + 1 :=
  chunk_text_length_le 4 0 ("abcd.xyzw".data) _ (by decide)

/-! ## Search service data model (searchService.js)

Result objects keep the fields the source reads and writes; the `metadata`
fields (timestamps, sentence indexes) play no role in any property and are
omitted.  `relevanceScore` is a JS number, modelled as `ℚ`. -/

structure Highlight where
  text : String
  startIndex : Nat
  endIndex : Nat
  type : String
deriving DecidableEq, Repr

structure SResult where
  id : String
  documentId : String
  title : String
  content : String
  relevanceScore : ℚ
  searchType : String
  highlights : List Highlight := []
deriving DecidableEq, Repr

/-- The per-document metadata stored in `this.documents` by
`addDocumentToIndex`. -/
structure DocMeta where
  id : String
  title : String
  content : String
  summary : String
deriving DecidableEq, Repr

/-- A document as delivered by the Mongoose `Document` model: the fields
`addDocumentToIndex`, `searchByDocument` and `getSimilarDocuments` read.
`embeddings` is the list of the chunk embedding vectors
(`document.embeddings[i].vector`). -/
structure InputDoc where
  docId : String
  title : String
  extractedText : String
  ocrText : String
  summary : String
  embeddings : List (List ℚ)
deriving DecidableEq, Repr

/-- The mutable state of a `SearchService` instance after `initialize()`:
`documents` models the JS `Map` (insertion-ordered association list),
`faissVectors` the vectors held by the `IndexFlatL2` (its `ntotal` is the
length), `embeddings` and `documentIds` the parallel arrays of the same
name; `bm25Docs` records the `(fullText, docId)` pairs handed to
`bm25Index.addDocument`. -/
structure SearchState where
  documents : List (String × DocMeta) := []
  faissVectors : List (List ℚ) := []
  embeddings : List (List ℚ) := []
  documentIds : List String := []
  bm25Docs : List (String × String) := []
deriving DecidableEq, Repr

/-- `Map.prototype.get`. -/
def mapFind (m : List (String × DocMeta)) (k : String) : Option DocMeta :=
  (m.find? (fun p => p.1 == k)).map (fun p => p.2)

/-- `Map.prototype.set`: update in place when the key exists (iteration order
keeps the original position), append otherwise. -/
def mapSet (m : List (String × DocMeta)) (k : String) (v : DocMeta) :
    List (String × DocMeta) :=
  if m.any (fun p => p.1 == k) then
    m.map (fun p => if p.1 == k then (k, v) else p)
  else m ++ [(k, v)]

/-! ## Vector arithmetic and the `IndexFlatL2` model -/

def sumSq (v : List ℚ) : ℚ := (v.map (fun x => x * x)).sum

/-- Dot product of two vectors of equal length (componentwise on the common
prefix). -/
def dotL : List ℚ → List ℚ → ℚ
  | [], _ => 0
  | _ :: _, [] => 0
  | a :: as, b :: bs => a * b + dotL as bs

/-- Squared euclidean distance, the metric of `IndexFlatL2`. -/
def sqDist : List ℚ → List ℚ → ℚ
  | [], _ => 0
  | _ :: _, [] => 0
  | a :: as, b :: bs => (a - b) * (a - b) + sqDist as bs

instance : DecidableRel (fun a b : Nat × ℚ => a.2 ≤ b.2) :=
  fun a b => inferInstanceAs (Decidable (a.2 ≤ b.2))

/-- `faissIndex.search(query, k)`: the flat index scans all stored vectors
and returns the `k` nearest `(label, distance)` pairs by ascending squared
euclidean distance. -/
def faissSearch (vecs : List (List ℚ)) (q : List ℚ) (k : Nat) : List (Nat × ℚ) :=
  let scored := (List.range vecs.length).map (fun i => (i, sqDist q (vecs.getD i [])))
  (scored.insertionSort (fun a b => a.2 ≤ b.2)).take k

/-! ## Index maintenance (`addDocumentToIndex`, `removeDocumentFromIndex`) -/

/-- `addDocumentToIndex` (searchService.js 55-90): store the document
metadata under its id, append every non-empty embedding vector to the FAISS
index together with the parallel `embeddings`/`documentIds` entries, and add
the full text to the BM25 index. -/
def addDocumentToIndex (st : SearchState) (document : InputDoc) : SearchState :=
  let docId := document.docId
  let fullText := trimStr (document.extractedText ++ " " ++ document.ocrText)
  let validVecs := document.embeddings.filter (fun v => v.length > 0)
  { documents := mapSet st.documents docId
      { id := docId, title := document.title, content := fullText,
        summary := document.summary },
    faissVectors := st.faissVectors ++ validVecs,
    embeddings := st.embeddings ++ validVecs,
    documentIds := st.documentIds ++ validVecs.map (fun _ => docId),
    bm25Docs := st.bm25Docs ++ [(fullText, docId)] }

/-- `removeDocumentFromIndex` (searchService.js 392-412): deletes the entry
from the `documents` map and computes the list of FAISS positions belonging
to the document — but that list is never used ("For now, we'll just mark for
removal"), and neither the FAISS arrays nor the BM25 index are touched. -/
def removeDocumentFromIndex (st : SearchState) (documentId : String) : SearchState :=
  { st with documents := st.documents.filter (fun p => p.1 != documentId) }

/-! ## Search operations

`generateQueryEmbedding` (a placeholder returning a random vector in the
source) and `bm25Index.search` (the `natural` library) are external effects:
they enter as parameters, wrapped in `Except String` because the awaited call
can reject — the `try/catch` blocks of `semanticSearch`/`keywordSearch`
return `[]` in that case. -/

/-- `semanticSearch` (searchService.js 133-169): embed the query, search the
FAISS index with `k = min(limit * 2, ntotal)`, and keep the hits whose label
resolves through `documentIds` to a document still present in the map;
the score is `1 - distance / 2`. -/
def semanticHits (st : SearchState) (queryEmbedding : List ℚ)
    (limit : Nat) : List SResult :=
  if st.faissVectors.length = 0 then []
  else
    let hits := faissSearch st.faissVectors queryEmbedding
      (min (limit * 2) st.faissVectors.length)
    hits.enum.filterMap (fun p =>
      (st.documentIds.get? p.2.1).bind (fun docId =>
        (mapFind st.documents docId).map (fun document =>
          { id := docId ++ "_" ++ toString p.1,
            documentId := docId,
            title := document.title,
            content := document.content,
            relevanceScore := 1 - p.2.2 / 2,
            searchType := "semantic" })))

def semanticSearch (st : SearchState) (qE : Except String (Option (List ℚ)))
    (limit : Nat) : List SResult :=
  match qE with
  | .error _ => []
  | .ok none => []
  | .ok (some queryEmbedding) => semanticHits st queryEmbedding limit

/-- `keywordSearch` (searchService.js 171-200): map each BM25 hit
`(id, score)` to a result when the id still resolves in the documents map,
dropping the rest (`filter(Boolean)`); the raw BM25 score is the relevance
score. -/
def keywordSearch (st : SearchState)
    (bE : Except String (List (String × ℚ))) : List SResult :=
  match bE with
  | .error _ => []
  | .ok bmResults =>
    bmResults.filterMap (fun p =>
      (mapFind st.documents p.1).map (fun document =>
        { id := p.1 ++ "_keyword",
          documentId := p.1,
          title := document.title,
          content := document.content,
          relevanceScore := p.2,
          searchType := "keyword" }))

/-- One `combinedResults` update of `combineSearchResults`: on a colliding
`documentId` take the max of the existing score and the weighted new score
and mark the entry `hybrid`; otherwise insert the result with its weighted
score (spread keeps all its other fields). -/
def combineStep (w : ℚ) (m : List SResult) (r : SResult) : List SResult :=
  if m.any (fun e => e.documentId == r.documentId) then
    m.map (fun e =>
      if e.documentId == r.documentId then
        { e with relevanceScore := max e.relevanceScore (r.relevanceScore * w),
                 searchType := "hybrid" }
      else e)
  else m ++ [{ r with relevanceScore := r.relevanceScore * w }]

/-- The `combinedResults` map after both `forEach` passes: semantic results
first with weight `0.8`, then keyword results with weight `0.6`. -/
def combinedMap (semanticResults keywordResults : List SResult) : List SResult :=
  keywordResults.foldl (combineStep (3 / 5))
    (semanticResults.foldl (combineStep (4 / 5)) [])

instance : DecidableRel (fun a b : SResult => b.relevanceScore ≤ a.relevanceScore) :=
  fun a b => inferInstanceAs (Decidable (b.relevanceScore ≤ a.relevanceScore))

/-- `combineSearchResults` (searchService.js 202-241): merge, sort by
descending relevance score, truncate to `limit`. -/
def combineSearchResults (semanticResults keywordResults : List SResult)
    (limit : Nat) : List SResult :=
  ((combinedMap semanticResults keywordResults).insertionSort
    (fun a b => b.relevanceScore ≤ a.relevanceScore)).take limit

/-! ## Highlighter (`generateHighlights`, searchService.js 243-280) -/

/-- The successive non-overlapping matches of the word `w0 :: ws` in the
lowercased content, scanning left to right from position `i` and jumping
past each match — the behaviour of `content.matchAll(regex)` with a global,
case-insensitive regex whose pattern is the (lowercased) literal word. -/
def scanMatches (w0 : Char) (ws : List Char) : List Char → Nat → List (Nat × Nat)
  | [], _ => []
  | c :: rest, i =>
    if startsWith (w0 :: ws) (c :: rest) then
      (i, i + (ws.length + 1)) ::
        scanMatches w0 ws (rest.drop ws.length) (i + (ws.length + 1))
    else scanMatches w0 ws rest (i + 1)
termination_by hay _ => hay.length
decreasing_by
  · have := (List.drop_sublist ws.length rest).length_le
    simp only [List.length_cons]
    omega
  · simp only [List.length_cons]
    omega

/-- The highlight objects one query word contributes: the matched text is the
original-case slice of the content at the matched span. -/
def wordHighlights (content : List Char) (w : List Char) : List Highlight :=
  match w with
  | [] => []
  | w0 :: ws =>
    (scanMatches w0 ws (content.map Char.toLower) 0).map (fun p =>
      { text := String.mk ((content.drop p.1).take (p.2 - p.1)),
        startIndex := p.1, endIndex := p.2, type := "keyword" })

/-- The overlap test of the filtering pass, exactly as coded:
`(h.start ≥ e.start && h.start < e.end) || (h.end > e.start && h.end ≤ e.end)`
for some already-kept `e`. -/
def hasOverlap (kept : List Highlight) (h : Highlight) : Bool :=
  kept.any (fun existing =>
    (decide (existing.startIndex ≤ h.startIndex) &&
      decide (h.startIndex < existing.endIndex)) ||
    (decide (existing.startIndex < h.endIndex) &&
      decide (h.endIndex ≤ existing.endIndex)))

instance : DecidableRel (fun a b : Highlight => a.startIndex ≤ b.startIndex) :=
  fun a b => inferInstanceAs (Decidable (a.startIndex ≤ b.startIndex))

/-- `generateHighlights`: collect matches of every query word longer than two
characters, sort ascending by start index, greedily drop anything the coded
overlap test flags against an already-kept highlight, and keep the first 10. -/
def generateHighlights (content query : String) : List Highlight :=
  let queryWords := splitWsChars (query.data.map Char.toLower)
  let highlights := queryWords.foldl (fun acc w =>
    if w.length > 2 then acc ++ wordHighlights content.data w else acc) []
  let sortedHighlights := highlights.insertionSort
    (fun a b => a.startIndex ≤ b.startIndex)
  let filteredHighlights := sortedHighlights.foldl (fun kept h =>
    if hasOverlap kept h then kept else kept ++ [h]) []
  filteredHighlights.take 10

/-! ## `search` and the other public query operations

The public operations are `async`: their observable outcome is the resolved
or rejected promise, an `Except String (List _)`.  Each body is wrapped in
`try { ... } catch { return [] }`. -/

structure SearchOptions where
  limit : Nat := 10
  threshold : ℚ := 7 / 10
  useHybrid : Bool := true
  includeHighlights : Bool := true
deriving DecidableEq, Repr

/-- The body of `search` (searchService.js 100-126): hybrid or pure semantic
results, threshold filter, optional highlights, final `slice(0, limit)`.
`semanticSearch` and `keywordSearch` catch their own failures, so the body
itself is total; the enclosing catch is `search` below. -/
def searchBody (st : SearchState) (qE : Except String (Option (List ℚ)))
    (bE : Except String (List (String × ℚ))) (query : String)
    (o : SearchOptions) : List SResult :=
  let results :=
    if o.useHybrid then
      combineSearchResults (semanticSearch st qE (o.limit * 2))
        (keywordSearch st bE) o.limit
    else
      semanticSearch st qE o.limit
  let results := results.filter (fun r => o.threshold ≤ r.relevanceScore)
  let results :=
    if o.includeHighlights then
      results.map (fun r =>
        { r with highlights := generateHighlights r.content query })
    else results
  results.take o.limit

/-- `search` (searchService.js 92-131): the resolved promise.  The modelled
body cannot throw (its fallible callees catch locally), so the outer
`catch { return [] }` always resolves with the body's list. -/
def search (st : SearchState) (qE : Except String (Option (List ℚ)))
    (bE : Except String (List (String × ℚ))) (query : String)
    (o : SearchOptions) : Except String (List SResult) :=
  Except.ok (searchBody st qE bE query o)

/-- A sentence terminator of `searchByDocument`'s split on `/[.!?]+/`. -/
def isSentEnd (c : Char) : Bool := c == '.' || c == '!' || c == '?'

/-- Model of `fullText.split(/[.!?]+/)`: a run of terminators is one
separator; a trailing fragment (possibly empty) is always produced. -/
def splitSentAux (l : List Char) (cur : List Char) : List (List Char) :=
  match l with
  | [] => [cur.reverse]
  | c :: rest =>
    if isSentEnd c then cur.reverse :: splitSentAux (rest.dropWhile isSentEnd) []
    else splitSentAux rest (c :: cur)
termination_by l.length
decreasing_by
  · simp only [List.length_cons]
    exact Nat.lt_succ_of_le ((List.dropWhile_sublist _).length_le)
  · simp only [List.length_cons]
    omega

def splitSentences (s : List Char) : List (List Char) := splitSentAux s []

/-- `sentenceLower.includes(word)`. -/
def hasSubstr (hay needle : List Char) : Bool :=
  (List.range (hay.length + 1)).any (fun i => startsWith needle (hay.drop i))

/-- `searchByDocument` (searchService.js 289-332): fetch the document
(`Document.findById`, an external call that may reject — caught, `[]`),
split its full text into sentences, score each sentence by the fraction of
long query words it contains, sort descending, truncate to
`options.limit || 10`. -/
def searchByDocument (fE : Except String (Option InputDoc))
    (documentId : String) (query : String) (limitOpt : Option Nat) :
    Except String (List SResult) :=
  match fE with
  | .error _ => Except.ok []
  | .ok none => Except.ok []
  | .ok (some document) =>
    let fullText := trimStr (document.extractedText ++ " " ++ document.ocrText)
    let queryWords := splitWsChars (query.data.map Char.toLower)
    let sentences := (splitSentences fullText.data).filter
      (fun s => (trimChars s).length > 0)
    let results := sentences.enum.filterMap (fun p =>
      let sentenceLower := p.2.map Char.toLower
      let matchedWords := queryWords.filter
        (fun w => w.length > 2 && hasSubstr sentenceLower w)
      if matchedWords.length > 0 then
        some { id := documentId ++ "_" ++ toString p.1,
               documentId := documentId,
               title := document.title,
               content := String.mk (trimChars p.2),
               relevanceScore := (matchedWords.length : ℚ) / (queryWords.length : ℚ),
               searchType := "document" }
      else none)
    let limit := match limitOpt with
      | some (n + 1) => n + 1
      | _ => 10
    Except.ok ((results.insertionSort
      (fun a b => b.relevanceScore ≤ a.relevanceScore)).take limit)

/-- The result shape built by `getSimilarDocuments` (it carries no
`documentId`/`searchType` fields in the source). -/
structure SimilarResult where
  id : String
  title : String
  content : String
  relevanceScore : ℚ
deriving DecidableEq, Repr

/-- `getSimilarDocuments` (searchService.js 334-371): fetch the document
(caught on rejection, `[]`), use its first embedding vector as the query,
search the FAISS index with `k = limit + 1`, skip the document itself and
any id no longer in the map, truncate to `limit`. -/
def getSimilarDocuments (st : SearchState)
    (fE : Except String (Option InputDoc)) (documentId : String)
    (limit : Nat) : Except String (List SimilarResult) :=
  match fE with
  | .error _ => Except.ok []
  | .ok none => Except.ok []
  | .ok (some document) =>
    match document.embeddings with
    | [] => Except.ok []
    | docEmbedding :: _ =>
      let hits := faissSearch st.faissVectors docEmbedding (limit + 1)
      let results := hits.filterMap (fun h =>
        (st.documentIds.get? h.1).bind (fun similarDocId =>
          if similarDocId == documentId then none
          else (mapFind st.documents similarDocId).map (fun similarDoc =>
            { id := similarDocId, title := similarDoc.title,
              content := similarDoc.content,
              relevanceScore := 1 - h.2 / 2 })))
      Except.ok (results.take limit)

/-! ## C2: removal does not purge the indexes (code bug) -/

/-- A one-document index built through `addDocumentToIndex`. -/
def c2Doc : InputDoc :=
  { docId := "d1", title := "T1", extractedText := "The quick brown fox",
    ocrText := "", summary := "", embeddings := [[1, 0]] }

def c2State : SearchState := addDocumentToIndex {} c2Doc

/-- C2: the claim says `removeDocumentFromIndex` purges every chunk entry of
the document from both the vector index and the keyword index.  The code only
deletes the `documents`-map entry: the FAISS vector, the parallel
`embeddings`/`documentIds` entries and the BM25 entry all remain after
removal (the computed `indicesToRemove` list is dropped on the floor). -/
theorem removeDocument_leaves_index_entries :
    (removeDocumentFromIndex c2State "d1").documents = [] ∧
    (removeDocumentFromIndex c2State "d1").faissVectors = [[1, 0]] ∧
    (removeDocumentFromIndex c2State "d1").embeddings = [[1, 0]] ∧
    (removeDocumentFromIndex c2State "d1").documentIds = ["d1"] ∧
    (removeDocumentFromIndex c2State "d1").bm25Docs =
      [("The quick brown fox", "d1")] :=
  ⟨rfl, rfl, rfl, rfl, rfl⟩

/-! ## C10: the public query operations never reject -/

/-- C10: `search`, `searchByDocument` and `getSimilarDocuments` always
resolve with a list: the body of `search` is total (its fallible callees
catch locally, returning `[]` on a rejected embedding or BM25 call), and a
rejected `Document.findById` is caught by `searchByDocument` and
`getSimilarDocuments`, which resolve with `[]` instead of the error. -/
theorem publicOps_never_throw :
    (∀ st qE bE query o, ∃ rs, search st qE bE query o = Except.ok rs) ∧
    (∀ fE documentId query limitOpt,
      ∃ rs, searchByDocument fE documentId query limitOpt = Except.ok rs) ∧
    (∀ e documentId query limitOpt,
      searchByDocument (Except.error e) documentId query limitOpt = Except.ok []) ∧
    (∀ st fE documentId limit,
      ∃ rs, getSimilarDocuments st fE documentId limit = Except.ok rs) ∧
    (∀ st e documentId limit,
      getSimilarDocuments st (Except.error e) documentId limit = Except.ok []) ∧
    (∀ st e limit, semanticSearch st (Except.error e) limit = []) ∧
    (∀ st e, keywordSearch st (Except.error e) = []) := by
  refine ⟨fun st qE bE query o => ⟨_, rfl⟩, ?_, fun e d q l => rfl, ?_,
    fun st e d l => rfl, fun st e l => rfl, fun st e => rfl⟩
  · intro fE documentId query limitOpt
    match fE with
    | .error _ => exact ⟨[], rfl⟩
    | .ok none => exact ⟨[], rfl⟩
    | .ok (some document) => exact ⟨_, rfl⟩
  · intro st fE documentId limit
    rcases fE with e | d
    · exact ⟨[], rfl⟩
    rcases d with _ | ⟨did, ti, ex, oc, su, embs⟩
    · exact ⟨[], rfl⟩
    rcases embs with _ | ⟨v, vs⟩
    · exact ⟨[], rfl⟩
    · exact ⟨_, rfl⟩

/-! ## C4: no query validation in `search` -/

/-- The claim as stated: for every whitespace-only query, `search` fails
with an (InvalidQuery) error. -/
def invalidQueryClaim : Prop :=
  ∀ st qE bE (query : String) o, trimStr query = "" →
    ∃ e, search st qE bE query o = Except.error e

def c4Meta : DocMeta :=
  { id := "d1", title := "T1", content := "fox", summary := "" }

def c4State : SearchState :=
  { documents := [("d1", c4Meta)], faissVectors := [], embeddings := [],
    documentIds := [], bm25Docs := [("fox", "d1")] }

unseal Rat.add Rat.mul Rat.sub Rat.inv Rat.ofScientific in
/-- C4 counterexample: `search` contains no query validation whatsoever.  On
the query `" "` it resolves normally; with a BM25 hit for `"d1"` available it
even returns that document, so the keyword index was consulted.  (The only
`Query is required` validation in the repository sits in the HTTP route
layer, `routes/query.js`, outside the search service.) -/
theorem invalidQueryClaim_false : ¬ invalidQueryClaim := by
  intro h
  obtain ⟨e, he⟩ := h c4State (Except.ok none) (Except.ok [("d1", 1)]) " "
    { limit := 10, threshold := 1 / 2, useHybrid := true,
      includeHighlights := false } (by decide)
  exact absurd he (by simp [search])

/-- C4 amended: `search` performs no query validation.  With highlighting
disabled its outcome does not depend on the query string at all (the query
reaches the pipeline only through the externally supplied embedding and BM25
results), and it never rejects: an empty or whitespace-only query yields the
ordinary — possibly non-empty — result list, never an InvalidQuery error. -/
theorem search_no_query_validation :
    (∀ st qE bE q q' o, o.includeHighlights = false →
      search st qE bE q o = search st qE bE q' o) ∧
    (∀ st qE bE (q : String) o, trimStr q = "" →
      ∃ rs, search st qE bE q o = Except.ok rs) := by
  constructor
  · intro st qE bE q q' o hh
    simp only [search, searchBody, hh, Bool.false_eq_true, if_false]
  · intro st qE bE q o _
    exact ⟨_, rfl⟩

unseal Rat.add Rat.mul Rat.sub Rat.inv Rat.ofScientific in
theorem search_no_query_validation_witness :
    search c4State (Except.ok none) (Except.ok [("d1", 1)]) " "
        { limit := 10, threshold := 1 / 2, useHybrid := true,
          includeHighlights := false } =
      search c4State (Except.ok none) (Except.ok [("d1", 1)]) "fox"
        { limit := 10, threshold := 1 / 2, useHybrid := true,
          includeHighlights := false } ∧
    trimStr " " = "" ∧
    ∃ rs, search c4State (Except.ok none) (Except.ok [("d1", 1)]) " "
        { limit := 10, threshold := 1 / 2, useHybrid := true,
          includeHighlights := false } = Except.ok rs :=
  ⟨search_no_query_validation.1 c4State (Except.ok none)
      (Except.ok [("d1", 1)]) " " "fox" _ rfl,
    by decide,
    search_no_query_validation.2 c4State (Except.ok none)
      (Except.ok [("d1", 1)]) " " _ (by decide)⟩

/-! ## C8: relevance-score bounds -/

theorem sumSq_nonneg (v : List ℚ) : 0 ≤ sumSq v := by
  apply List.sum_nonneg
  intro x hx
  obtain ⟨y, _, rfl⟩ := List.mem_map.mp hx
  exact mul_self_nonneg y

/-- Cauchy-Schwarz for the componentwise dot product of lists. -/
theorem dotL_sq_le (a : List ℚ) : ∀ b, (dotL a b) ^ 2 ≤ sumSq a * sumSq b := by
  induction a with
  | nil =>
    intro b
    simp [dotL, sumSq]
  | cons x as ih =>
    intro b
    cases b with
    | nil =>
      simp [dotL, sumSq]
    | cons y bs =>
      have h := ih bs
      have hA := sumSq_nonneg as
      have hB := sumSq_nonneg bs
      have hxa : sumSq (x :: as) = x * x + sumSq as := by simp [sumSq]
      have hyb : sumSq (y :: bs) = y * y + sumSq bs := by simp [sumSq]
      have hd : dotL (x :: as) (y :: bs) = x * y + dotL as bs := rfl
      rw [hxa, hyb, hd]
      rcases eq_or_lt_of_le hA with hA0 | hApos
      · have hS : dotL as bs = 0 := by
          have hS2 : dotL as bs ^ 2 ≤ 0 := by
            calc dotL as bs ^ 2 ≤ sumSq as * sumSq bs := h
              _ = 0 := by rw [← hA0]; ring
          have := sq_nonneg (dotL as bs)
          have : dotL as bs ^ 2 = 0 := le_antisymm hS2 this
          exact pow_eq_zero_iff (n := 2) (by omega) |>.mp this
        rw [hS, ← hA0]
        nlinarith [mul_nonneg (mul_self_nonneg x) hB]
      · have key : (x * dotL as bs - y * sumSq as) ^ 2 +
            (x * x + sumSq as) * (sumSq as * sumSq bs - dotL as bs ^ 2) =
            sumSq as * ((x * x + sumSq as) * (y * y + sumSq bs) -
              (x * y + dotL as bs) ^ 2) := by ring
        have t1 : 0 ≤ (x * dotL as bs - y * sumSq as) ^ 2 := sq_nonneg _
        have t2 : 0 ≤ (x * x + sumSq as) *
            (sumSq as * sumSq bs - dotL as bs ^ 2) := by
          apply mul_nonneg
          · nlinarith [mul_self_nonneg x]
          · linarith
        have h2 : 0 ≤ sumSq as * ((x * x + sumSq as) * (y * y + sumSq bs) -
            (x * y + dotL as bs) ^ 2) := by
          rw [← key]; linarith
        have h3 := (mul_nonneg_iff_of_pos_left hApos).mp h2
        linarith

theorem sqDist_eq (a : List ℚ) :
    ∀ b, a.length = b.length →
      sqDist a b = sumSq a + sumSq b - 2 * dotL a b := by
  induction a with
  | nil =>
    intro b hb
    cases b with
    | nil => simp [sqDist, sumSq, dotL]
    | cons y bs => simp at hb
  | cons x as ih =>
    intro b hb
    cases b with
    | nil => simp at hb
    | cons y bs =>
      have h := ih bs (by simpa using hb)
      have h1 : sqDist (x :: as) (y :: bs) = (x - y) * (x - y) + sqDist as bs := rfl
      have h2 : sumSq (x :: as) = x * x + sumSq as := by simp [sumSq]
      have h3 : sumSq (y :: bs) = y * y + sumSq bs := by simp [sumSq]
      have h4 : dotL (x :: as) (y :: bs) = x * y + dotL as bs := rfl
      rw [h1, h2, h3, h4, h]
      ring

/-- The squared distance between unit vectors of equal dimension lies in
`[0, 4]`, so `1 - d/2` lies in `[-1, 1]`. -/
theorem unit_score_bounds (q v : List ℚ) (hq : sumSq q = 1) (hv : sumSq v = 1)
    (hlen : q.length = v.length) :
    -1 ≤ 1 - sqDist q v / 2 ∧ 1 - sqDist q v / 2 ≤ 1 := by
  have hd : sqDist q v = 2 - 2 * dotL q v := by
    rw [sqDist_eq q v hlen, hq, hv]; ring
  have hcs : (dotL q v) ^ 2 ≤ 1 := by
    have := dotL_sq_le q v
    rw [hq, hv] at this
    simpa using this
  constructor <;> nlinarith [sq_nonneg (dotL q v - 1), sq_nonneg (dotL q v + 1)]

/-- Every pair returned by the flat-index search carries the squared distance
from the query to one of the stored vectors. -/
theorem mem_faissSearch (vecs : List (List ℚ)) (q : List ℚ) (k : Nat)
    (p : Nat × ℚ) (hp : p ∈ faissSearch vecs q k) :
    ∃ v ∈ vecs, p.2 = sqDist q v := by
  unfold faissSearch at hp
  have h1 := List.mem_of_mem_take hp
  have h2 := (List.mem_insertionSort (fun a b : Nat × ℚ => a.2 ≤ b.2)).mp h1
  obtain ⟨i, hi, hpe⟩ := List.mem_map.mp h2
  have hilt : i < vecs.length := List.mem_range.mp hi
  refine ⟨vecs.getD i [], ?_, ?_⟩
  · rw [List.getD_eq_getElem vecs [] hilt]
    exact List.getElem_mem hilt
  · rw [← hpe]

/-- Every semantic result's score is `1 - d/2` for the squared distance `d`
between the query embedding and some stored vector. -/
theorem mem_semanticSearch_score (st : SearchState) (q : List ℚ) (limit : Nat)
    (r : SResult) (hr : r ∈ semanticSearch st (Except.ok (some q)) limit) :
    ∃ v ∈ st.faissVectors, r.relevanceScore = 1 - sqDist q v / 2 := by
  replace hr : r ∈ semanticHits st q limit := hr
  unfold semanticHits at hr
  by_cases hz : st.faissVectors.length = 0
  · rw [if_pos hz] at hr
    simp at hr
  · rw [if_neg hz] at hr
    obtain ⟨p, hp, hpr⟩ := List.mem_filterMap.mp hr
    obtain ⟨docId, _, hbind⟩ := Option.bind_eq_some.mp hpr
    obtain ⟨document, _, hmk⟩ := Option.map_eq_some'.mp hbind
    obtain ⟨v, hv, hdist⟩ := mem_faissSearch st.faissVectors q
      (min (limit * 2) st.faissVectors.length) p.2
      (List.snd_mem_of_mem_enum hp)
    refine ⟨v, hv, ?_⟩
    rw [← hmk, ← hdist]

/-- The claim as stated: under the unit-normalization precondition every
result of `search` carries a relevance score in `[0, 1]`. -/
def searchScoreRangeClaim : Prop :=
  ∀ st (q : List ℚ) bm (query : String) o rs r,
    (∀ v ∈ st.faissVectors, sumSq v = 1 ∧ v.length = q.length) →
    sumSq q = 1 →
    search st (Except.ok (some q)) (Except.ok bm) query o = Except.ok rs →
    r ∈ rs → 0 ≤ r.relevanceScore ∧ r.relevanceScore ≤ 1

def c8Meta : DocMeta :=
  { id := "d1", title := "T1", content := "fox", summary := "" }

def c8State : SearchState :=
  { documents := [("d1", c8Meta)], faissVectors := [[-1, 0]],
    embeddings := [[-1, 0]], documentIds := ["d1"], bm25Docs := [] }

unseal Rat.add Rat.mul Rat.sub Rat.inv Rat.ofScientific in
/-- C8 counterexample: two unit vectors can point in opposite directions, so
the squared distance reaches 4 and the score `1 - d/2` reaches `-1 < 0`.
With the stored unit vector `[-1, 0]`, the unit query embedding `[1, 0]` and
a caller-supplied `threshold = -1` (options are universally quantified in the
claim), `search` returns the document with `relevanceScore = -1`. -/
theorem searchScoreRangeClaim_false : ¬ searchScoreRangeClaim := by
  intro h
  have := h c8State [1, 0] [] "q"
    { limit := 10, threshold := -1, useHybrid := false,
      includeHighlights := false } _
    { id := "d1_0", documentId := "d1", title := "T1", content := "fox",
      relevanceScore := -1, searchType := "semantic" }
    (by decide) (by decide) rfl (by decide)
  exact absurd this.1 (by decide)

/-- C8 amended: under the unit-normalization precondition every semantic
result's score lies in `[-1, 1]` (not `[0, 1]`: the score equals the dot
product of query and chunk vector, which can be negative); keyword results
carry the raw BM25 score through unchanged, so no `[0, 1]` bound follows for
them from this precondition. -/
theorem semantic_score_in_range :
    (∀ st (q : List ℚ) limit r,
      (∀ v ∈ st.faissVectors, sumSq v = 1 ∧ v.length = q.length) →
      sumSq q = 1 →
      r ∈ semanticSearch st (Except.ok (some q)) limit →
      -1 ≤ r.relevanceScore ∧ r.relevanceScore ≤ 1) ∧
    (∀ st bm r, r ∈ keywordSearch st (Except.ok bm) →
      ∃ p ∈ bm, r.relevanceScore = p.2) := by
  constructor
  · intro st q limit r hU hq hr
    obtain ⟨v, hv, hscore⟩ := mem_semanticSearch_score st q limit r hr
    obtain ⟨hv1, hv2⟩ := hU v hv
    rw [hscore]
    exact unit_score_bounds q v hq hv1 hv2.symm
  · intro st bm r hr
    obtain ⟨p, hp, hpr⟩ := List.mem_filterMap.mp hr
    obtain ⟨document, _, hmk⟩ := Option.map_eq_some'.mp hpr
    exact ⟨p, hp, by rw [← hmk]⟩

def c8wState : SearchState :=
  { documents := [("d1", c8Meta)], faissVectors := [[1, 0]],
    embeddings := [[1, 0]], documentIds := ["d1"], bm25Docs := [] }

unseal Rat.add Rat.mul Rat.sub Rat.inv Rat.ofScientific in
theorem semantic_score_in_range_witness :
    -1 ≤ ({ id := "d1_0", documentId := "d1", title := "T1", content := "fox",
            relevanceScore := 1, searchType := "semantic" } : SResult).relevanceScore ∧
    ({ id := "d1_0", documentId := "d1", title := "T1", content := "fox",
       relevanceScore := 1, searchType := "semantic" } : SResult).relevanceScore ≤ 1 :=
  semantic_score_in_range.1 c8wState [1, 0] 10 _ (by decide) (by decide) (by decide)

/-! ## C1: the merge of `combineSearchResults`

The proof tracks the `combinedResults` map through the two `forEach` passes.
`wOcc proc d` lists the already-processed weighted occurrences of document
`d`; `GoodMap proc m` says every map entry's score is the running maximum of
its occurrences' weighted scores and its `searchType` is the first
occurrence's type, overwritten with `"hybrid"` as soon as a second occurrence
of the same document — from either list — touches the entry. -/

def wOcc (proc : List (SResult × ℚ)) (d : String) : List (SResult × ℚ) :=
  proc.filter (fun p => p.1.documentId == d)

/-- Maximum of a non-empty list (0 for the empty list, never used there). -/
def listMax : List ℚ → ℚ
  | [] => 0
  | x :: xs => xs.foldl max x

def GoodMap (proc : List (SResult × ℚ)) (m : List SResult) : Prop :=
  (∀ e ∈ m, ∃ p0 ps, wOcc proc e.documentId = p0 :: ps ∧
    e.relevanceScore = (ps.map (fun p => p.1.relevanceScore * p.2)).foldl max
      (p0.1.relevanceScore * p0.2) ∧
    e.searchType = (if ps.isEmpty then p0.1.searchType else "hybrid")) ∧
  (∀ d : String, (∃ e ∈ m, e.documentId = d) ↔ wOcc proc d ≠ []) ∧
  (m.map (fun e => e.documentId)).Nodup

theorem wOcc_append (proc : List (SResult × ℚ)) (r : SResult) (w : ℚ)
    (d : String) :
    wOcc (proc ++ [(r, w)]) d =
      wOcc proc d ++ (if r.documentId = d then [(r, w)] else []) := by
  simp only [wOcc, List.filter_append]
  congr 1
  by_cases h : r.documentId = d
  · simp [h]
  · simp [h]

theorem combineStep_good (proc : List (SResult × ℚ)) (m : List SResult)
    (r : SResult) (w : ℚ) (hg : GoodMap proc m) :
    GoodMap (proc ++ [(r, w)]) (combineStep w m r) := by
  obtain ⟨h1, h2, h3⟩ := hg
  by_cases hb : m.any (fun e => e.documentId == r.documentId)
  · -- the document already has a map entry: update it in place
    have hbm : ∃ e ∈ m, e.documentId = r.documentId := by
      obtain ⟨e, he, hbe⟩ := List.any_eq_true.mp hb
      exact ⟨e, he, by simpa using hbe⟩
    rw [combineStep, if_pos hb]
    refine ⟨?_, ?_, ?_⟩
    · intro e' he'
      obtain ⟨e, he, rfl⟩ := List.mem_map.mp he'
      obtain ⟨p0, ps, hocc, hscore, htype⟩ := h1 e he
      by_cases hd : e.documentId = r.documentId
      · rw [if_pos (by simpa using hd)]
        refine ⟨p0, ps ++ [(r, w)], ?_, ?_, ?_⟩
        · rw [wOcc_append, if_pos hd.symm]
          simp [hocc]
        · simp only [List.map_append, List.foldl_append, ← hscore]
          simp
        · simp
      · rw [if_neg (by simpa using hd)]
        refine ⟨p0, ps, ?_, hscore, htype⟩
        rw [wOcc_append, if_neg (fun hh => hd hh.symm)]
        simp [hocc]
    · intro d
      constructor
      · rintro ⟨e', he', hd⟩
        obtain ⟨e, he, rfl⟩ := List.mem_map.mp he'
        have hed : e.documentId = d := by
          by_cases hh : e.documentId = r.documentId
          · rw [if_pos (by simpa using hh)] at hd
            simpa using hd
          · rw [if_neg (by simpa using hh)] at hd
            exact hd
        have := (h2 d).mp ⟨e, he, hed⟩
        rw [wOcc_append]
        intro hcon
        exact this (by simpa using (List.append_eq_nil.mp hcon).1)
      · intro hocc
        rw [wOcc_append] at hocc
        by_cases hd : r.documentId = d
        · obtain ⟨e, he, hed⟩ := hbm
          refine ⟨_, List.mem_map_of_mem _ he, ?_⟩
          rw [if_pos (by simpa using hed)]
          simpa using hed.trans hd
        · rw [if_neg hd] at hocc
          simp only [List.append_nil] at hocc
          obtain ⟨e, he, hed⟩ := (h2 d).mpr hocc
          refine ⟨_, List.mem_map_of_mem _ he, ?_⟩
          by_cases hh : e.documentId = r.documentId
          · exact absurd (hh ▸ hed) hd
          · rw [if_neg (by simpa using hh)]
            exact hed
    · have : (m.map (fun e =>
          if e.documentId == r.documentId then
            { e with relevanceScore := max e.relevanceScore (r.relevanceScore * w),
                     searchType := "hybrid" }
          else e)).map (fun e => e.documentId) =
          m.map (fun e => e.documentId) := by
        rw [List.map_map]
        apply List.map_congr_left
        intro e _
        by_cases hh : e.documentId = r.documentId
        · simp [hh]
        · simp [hh]
      rw [this]
      exact h3
  · -- first occurrence of the document: append a fresh entry
    have hnone : ∀ e ∈ m, e.documentId ≠ r.documentId := by
      simpa using hb
    have hempty : wOcc proc r.documentId = [] := by
      by_contra hne
      obtain ⟨e, he, hed⟩ := (h2 r.documentId).mpr hne
      exact hnone e he hed
    rw [combineStep, if_neg hb]
    refine ⟨?_, ?_, ?_⟩
    · intro e' he'
      rcases List.mem_append.mp he' with he | he
      · obtain ⟨p0, ps, hocc, hscore, htype⟩ := h1 e' he
        refine ⟨p0, ps, ?_, hscore, htype⟩
        rw [wOcc_append, if_neg (fun hh => hnone e' he hh.symm)]
        simp [hocc]
      · rcases List.mem_singleton.mp he with rfl
        refine ⟨(r, w), [], ?_, rfl, rfl⟩
        show wOcc (proc ++ [(r, w)]) r.documentId = [(r, w)]
        rw [wOcc_append, if_pos rfl, hempty]
        rfl
    · intro d
      constructor
      · rintro ⟨e', he', hd⟩
        rw [wOcc_append]
        rcases List.mem_append.mp he' with he | he
        · have := (h2 d).mp ⟨e', he, hd⟩
          intro hcon
          exact this (by simpa using (List.append_eq_nil.mp hcon).1)
        · rcases List.mem_singleton.mp he with rfl
          rw [if_pos hd]
          simp
      · intro hocc
        rw [wOcc_append] at hocc
        by_cases hd : r.documentId = d
        · exact ⟨_, List.mem_append_right _ (List.mem_singleton_self _), hd⟩
        · rw [if_neg hd] at hocc
          simp only [List.append_nil] at hocc
          obtain ⟨e, he, hed⟩ := (h2 d).mpr hocc
          exact ⟨e, List.mem_append_left _ he, hed⟩
    · simp only [List.map_append]
      rw [List.nodup_append]
      refine ⟨h3, List.nodup_singleton _, ?_⟩
      intro x hx
      obtain ⟨e, he, rfl⟩ := List.mem_map.mp hx
      simp only [List.map_cons, List.map_nil, List.mem_singleton]
      intro hcon
      exact hnone e he hcon

theorem foldl_combineStep_good (w : ℚ) :
    ∀ (rs : List SResult) (proc : List (SResult × ℚ)) (m : List SResult),
      GoodMap proc m →
      GoodMap (proc ++ rs.map (fun r => (r, w))) (rs.foldl (combineStep w) m) := by
  intro rs
  induction rs with
  | nil => intro proc m hg; simpa using hg
  | cons r rs ih =>
    intro proc m hg
    have h1 := combineStep_good proc m r w hg
    have h2 := ih (proc ++ [(r, w)]) _ h1
    simpa [List.append_assoc] using h2

theorem goodMap_nil : GoodMap [] [] := by
  refine ⟨by simp, ?_, by simp⟩
  intro d
  simp [wOcc]

/-- The processed-occurrence list of the full merge: semantic results at
weight `0.8`, then keyword results at weight `0.6`. -/
def procOf (s k : List SResult) : List (SResult × ℚ) :=
  s.map (fun r => (r, (4 : ℚ) / 5)) ++ k.map (fun r => (r, (3 : ℚ) / 5))

theorem combinedMap_good (s k : List SResult) :
    GoodMap (procOf s k) (combinedMap s k) := by
  have h1 := foldl_combineStep_good ((4 : ℚ) / 5) s [] [] goodMap_nil
  have h2 := foldl_combineStep_good ((3 : ℚ) / 5) k _ _ h1
  simpa [procOf, combinedMap] using h2

theorem wOcc_procOf (s k : List SResult) (d : String) :
    wOcc (procOf s k) d =
      (s.filter (fun r => r.documentId == d)).map (fun r => (r, (4 : ℚ) / 5)) ++
      (k.filter (fun r => r.documentId == d)).map (fun r => (r, (3 : ℚ) / 5)) := by
  simp only [procOf, wOcc, List.filter_append]
  rw [List.filter_map, List.filter_map]
  rfl

/-- Membership in the final (sorted, truncated) combine output comes from the
merge map. -/
theorem mem_combineSearchResults (s k : List SResult) (limit : Nat)
    (e : SResult) (he : e ∈ combineSearchResults s k limit) :
    e ∈ combinedMap s k := by
  unfold combineSearchResults at he
  exact (List.mem_insertionSort _).mp (List.mem_of_mem_take he)

/-- The claim as stated: per-document max of weighted scores, and
`searchType = "hybrid"` exactly when the document appears in both lists. -/
def combineClaim : Prop :=
  ∀ (s k : List SResult) (limit : Nat),
    (∀ r ∈ s, r.searchType = "semantic") →
    (∀ r ∈ k, r.searchType = "keyword") →
    ∀ e ∈ combineSearchResults s k limit,
      e.relevanceScore = listMax
        ((s.filter (fun r => r.documentId == e.documentId)).map
            (fun r => r.relevanceScore * (4 / 5)) ++
          (k.filter (fun r => r.documentId == e.documentId)).map
            (fun r => r.relevanceScore * (3 / 5))) ∧
      e.searchType =
        (if s.any (fun r => r.documentId == e.documentId) &&
            k.any (fun r => r.documentId == e.documentId) then "hybrid"
         else if s.any (fun r => r.documentId == e.documentId) then "semantic"
         else "keyword")

def c1a : SResult :=
  { id := "a", documentId := "d", title := "t", content := "c",
    relevanceScore := 1, searchType := "semantic" }

def c1b : SResult :=
  { id := "b", documentId := "d", title := "t", content := "c",
    relevanceScore := 1, searchType := "semantic" }

def c1e : SResult :=
  { id := "a", documentId := "d", title := "t", content := "c",
    relevanceScore := 4 / 5, searchType := "hybrid" }

unseal Rat.add Rat.mul Rat.sub Rat.inv Rat.ofScientific in
/-- C1 counterexample: `semanticSearch` returns one entry per chunk, so the
same document can occur twice in the semantic list alone.  The second
occurrence takes the `existing` branch and stamps `searchType = "hybrid"`
even though the document never appears in the keyword list: merging
`[c1a, c1b]` (both for document `"d"`, both `"semantic"`) with an empty
keyword list yields `searchType = "hybrid"`, where the claim requires
`"semantic"`. -/
theorem combineClaim_false : ¬ combineClaim := by
  intro h
  have := h [c1a, c1b] [] 10 (by decide) (by decide) c1e (by decide)
  exact absurd this.2 (by decide)

/-- C1 amended: every merged entry's score is the maximum of the weighted
scores of all its occurrences (semantic × 0.8, keyword × 0.6), and a
document occurring in exactly one list once keeps that occurrence's type;
but `searchType = "hybrid"` is stamped as soon as the document has two or
more occurrences across the two lists — in particular, though not only,
when it appears in both. -/
theorem combineSearchResults_spec (s k : List SResult) (limit : Nat)
    (hs : ∀ r ∈ s, r.searchType = "semantic")
    (hk : ∀ r ∈ k, r.searchType = "keyword") :
    ∀ e ∈ combineSearchResults s k limit,
      ((s.filter (fun r => r.documentId == e.documentId)) ≠ [] ∨
        (k.filter (fun r => r.documentId == e.documentId)) ≠ []) ∧
      e.relevanceScore = listMax
        ((s.filter (fun r => r.documentId == e.documentId)).map
            (fun r => r.relevanceScore * (4 / 5)) ++
          (k.filter (fun r => r.documentId == e.documentId)).map
            (fun r => r.relevanceScore * (3 / 5))) ∧
      e.searchType =
        (if 2 ≤ (s.filter (fun r => r.documentId == e.documentId)).length +
              (k.filter (fun r => r.documentId == e.documentId)).length then
          "hybrid"
         else if (s.filter (fun r => r.documentId == e.documentId)) ≠ [] then
          "semantic"
         else "keyword") := by
  intro e he
  have hmem := mem_combineSearchResults s k limit e he
  obtain ⟨h1, _, _⟩ := combinedMap_good s k
  obtain ⟨p0, ps, hocc, hscore, htype⟩ := h1 e hmem
  rw [wOcc_procOf] at hocc
  refine ⟨?_, ?_, ?_⟩
  · by_cases hsf : s.filter (fun r => r.documentId == e.documentId) = []
    · right
      intro hkf
      rw [hsf, hkf] at hocc
      simp at hocc
    · exact Or.inl hsf
  · have hmapped :
        (s.filter (fun r => r.documentId == e.documentId)).map
            (fun r => r.relevanceScore * (4 / 5 : ℚ)) ++
          (k.filter (fun r => r.documentId == e.documentId)).map
            (fun r => r.relevanceScore * (3 / 5 : ℚ)) =
        (p0 :: ps).map (fun p => p.1.relevanceScore * p.2) := by
      rw [← hocc]
      simp only [List.map_append, List.map_map]
      rfl
    rw [hmapped]
    simpa [listMax] using hscore
  · have hlen : (s.filter (fun r => r.documentId == e.documentId)).length +
        (k.filter (fun r => r.documentId == e.documentId)).length =
        (p0 :: ps).length := by
      rw [← hocc]
      simp
    cases ps with
    | nil =>
      have hl1 : (s.filter (fun r => r.documentId == e.documentId)).length +
          (k.filter (fun r => r.documentId == e.documentId)).length = 1 := by
        simpa using hlen
      rw [if_neg (by omega)]
      cases hsF0 : s.filter (fun r => r.documentId == e.documentId) with
      | nil =>
        rw [if_neg (by simp)]
        rw [hsF0] at hocc
        simp only [List.map_nil, List.nil_append] at hocc
        have hkmem : p0.1 ∈ k.filter (fun r => r.documentId == e.documentId) := by
          rcases hmm : k.filter (fun r => r.documentId == e.documentId) with _ | ⟨r0, rest⟩
          · rw [hmm] at hocc; simp at hocc
          · rw [hmm] at hocc
            simp only [List.map_cons, List.cons.injEq] at hocc
            rw [hmm, ← hocc.1]
            exact List.mem_cons_self _ _
        have : p0.1.searchType = "keyword" :=
          hk _ (List.mem_of_mem_filter hkmem)
        rw [htype]
        simpa using this
      | cons r0 rest =>
        rw [if_pos (by simp)]
        rw [hsF0] at hocc
        simp only [List.map_cons, List.cons_append, List.cons.injEq] at hocc
        have : p0.1.searchType = "semantic" := by
          have hr0 : r0 ∈ s.filter (fun r => r.documentId == e.documentId) := by
            rw [hsF0]; exact List.mem_cons_self _ _
          have := hs _ (List.mem_of_mem_filter hr0)
          rw [← hocc.1]
          simpa using this
        rw [htype]
        simpa using this
    | cons q qs =>
      rw [if_pos (by simp at hlen; omega)]
      simpa using htype

def c1wOut : SResult :=
  { id := "a", documentId := "d", title := "t", content := "c",
    relevanceScore := 4 / 5, searchType := "semantic" }

unseal Rat.add Rat.mul Rat.sub Rat.inv Rat.ofScientific in
theorem combineSearchResults_spec_witness :
    (([c1a].filter (fun r => r.documentId == c1wOut.documentId)) ≠ [] ∨
      (([] : List SResult).filter (fun r => r.documentId == c1wOut.documentId)) ≠ []) ∧
    c1wOut.relevanceScore = listMax
      (([c1a].filter (fun r => r.documentId == c1wOut.documentId)).map
          (fun r => r.relevanceScore * (4 / 5)) ++
        (([] : List SResult).filter (fun r => r.documentId == c1wOut.documentId)).map
          (fun r => r.relevanceScore * (3 / 5))) ∧
    c1wOut.searchType =
      (if 2 ≤ ([c1a].filter (fun r => r.documentId == c1wOut.documentId)).length +
            (([] : List SResult).filter (fun r => r.documentId == c1wOut.documentId)).length then
        "hybrid"
       else if ([c1a].filter (fun r => r.documentId == c1wOut.documentId)) ≠ [] then
        "semantic"
       else "keyword") :=
  combineSearchResults_spec [c1a] [] 10 (by decide) (by decide) c1wOut (by decide)

/-! ## C3: removal idempotence, and removed documents never surface -/

/-- Every semantic result's `documentId` still resolves in the documents
map (ids that do not resolve are skipped by the `if (document)` guard). -/
theorem mem_semanticSearch_docId (st : SearchState)
    (qE : Except String (Option (List ℚ))) (limit : Nat) (r : SResult)
    (hr : r ∈ semanticSearch st qE limit) :
    ∃ meta, mapFind st.documents r.documentId = some meta := by
  match qE with
  | .error _ => simp [semanticSearch] at hr
  | .ok none => simp [semanticSearch] at hr
  | .ok (some q) =>
    replace hr : r ∈ semanticHits st q limit := hr
    unfold semanticHits at hr
    by_cases hz : st.faissVectors.length = 0
    · rw [if_pos hz] at hr
      simp at hr
    · rw [if_neg hz] at hr
      obtain ⟨p, _, hpr⟩ := List.mem_filterMap.mp hr
      obtain ⟨docId, _, hbind⟩ := Option.bind_eq_some.mp hpr
      obtain ⟨document, hfind, hmk⟩ := Option.map_eq_some'.mp hbind
      refine ⟨document, ?_⟩
      rw [← hmk]
      simpa using hfind

/-- Every keyword result's `documentId` still resolves in the documents map
(the `filter(Boolean)` drops the rest). -/
theorem mem_keywordSearch_docId (st : SearchState)
    (bE : Except String (List (String × ℚ))) (r : SResult)
    (hr : r ∈ keywordSearch st bE) :
    ∃ meta, mapFind st.documents r.documentId = some meta := by
  match bE with
  | .error _ => simp [keywordSearch] at hr
  | .ok bm =>
    obtain ⟨p, _, hpr⟩ := List.mem_filterMap.mp hr
    obtain ⟨document, hfind, hmk⟩ := Option.map_eq_some'.mp hpr
    refine ⟨document, ?_⟩
    rw [← hmk]
    simpa using hfind

/-- Every merged entry's `documentId` comes from one of the two input
lists. -/
theorem mem_combinedMap_docId (s k : List SResult) (e : SResult)
    (he : e ∈ combinedMap s k) :
    ∃ r ∈ s ++ k, r.documentId = e.documentId := by
  obtain ⟨h1, _, _⟩ := combinedMap_good s k
  obtain ⟨p0, ps, hocc, _, _⟩ := h1 e he
  have hp0 : p0 ∈ wOcc (procOf s k) e.documentId := by
    rw [hocc]; exact List.mem_cons_self _ _
  have hp0p : p0 ∈ procOf s k := List.mem_of_mem_filter hp0
  have hp0d : p0.1.documentId = e.documentId := by
    have := List.of_mem_filter hp0
    simpa using this
  refine ⟨p0.1, ?_, hp0d⟩
  rcases List.mem_append.mp hp0p with hmem | hmem
  · obtain ⟨r, hrs, hre⟩ := List.mem_map.mp hmem
    exact List.mem_append_left _ (by rw [← hre]; exact hrs)
  · obtain ⟨r, hrs, hre⟩ := List.mem_map.mp hmem
    exact List.mem_append_right _ (by rw [← hre]; exact hrs)

/-- Every result delivered by the body of `search` names a document that
still resolves in the documents map. -/
theorem mem_searchBody_docId (st : SearchState)
    (qE : Except String (Option (List ℚ)))
    (bE : Except String (List (String × ℚ))) (query : String)
    (o : SearchOptions) (r : SResult)
    (hr : r ∈ searchBody st qE bE query o) :
    ∃ meta, mapFind st.documents r.documentId = some meta := by
  unfold searchBody at hr
  replace hr := List.mem_of_mem_take hr
  have step : ∀ r', r' ∈ (if o.useHybrid then
      combineSearchResults (semanticSearch st qE (o.limit * 2))
        (keywordSearch st bE) o.limit
    else semanticSearch st qE o.limit) →
      ∃ meta, mapFind st.documents r'.documentId = some meta := by
    intro r' hr'
    by_cases hh : o.useHybrid
    · rw [if_pos hh] at hr'
      have hm := mem_combineSearchResults _ _ _ _ hr'
      obtain ⟨r1, hr1, hr1d⟩ := mem_combinedMap_docId _ _ _ hm
      rw [← hr1d]
      rcases List.mem_append.mp hr1 with h | h
      · exact mem_semanticSearch_docId st qE (o.limit * 2) r1 h
      · exact mem_keywordSearch_docId st bE r1 h
    · rw [if_neg hh] at hr'
      exact mem_semanticSearch_docId st qE o.limit r' hr'
  by_cases hl : o.includeHighlights
  · rw [if_pos hl] at hr
    obtain ⟨r0, hr0, rfl⟩ := List.mem_map.mp hr
    have hr0f := List.mem_of_mem_filter hr0
    simpa using step r0 hr0f
  · rw [if_neg hl] at hr
    exact step r (List.mem_of_mem_filter hr)

/-- After removal the map no longer resolves the removed id. -/
theorem mapFind_remove_none (st : SearchState) (d : String) :
    mapFind (removeDocumentFromIndex st d).documents d = none := by
  unfold removeDocumentFromIndex mapFind
  cases hf : (st.documents.filter (fun p => p.1 != d)).find?
      (fun p => p.1 == d) with
  | none => rfl
  | some x =>
    have hmem := List.mem_of_find?_eq_some hf
    have hpred := List.find?_some hf
    have hfil := List.of_mem_filter hmem
    rw [show x.1 = d from by simpa using hpred] at hfil
    simp at hfil

/-- C3: removing a document twice leaves the state exactly as removing it
once, and no subsequent `search` — whatever the index state, query
embedding, BM25 answer, query and options — returns the removed document. -/
theorem removeDocument_idempotent_and_absent :
    ∀ st d qE bE query o rs r,
      removeDocumentFromIndex (removeDocumentFromIndex st d) d =
        removeDocumentFromIndex st d ∧
      (search (removeDocumentFromIndex st d) qE bE query o = Except.ok rs →
        r ∈ rs → r.documentId ≠ d) := by
  intro st d qE bE query o rs r
  constructor
  · simp [removeDocumentFromIndex, List.filter_filter]
  · intro hok hr hcon
    have hrs : searchBody (removeDocumentFromIndex st d) qE bE query o = rs := by
      simpa [search] using hok
    rw [← hrs] at hr
    obtain ⟨meta, hmeta⟩ := mem_searchBody_docId _ qE bE query o r hr
    rw [hcon, mapFind_remove_none] at hmeta
    cases hmeta

def c3Meta1 : DocMeta := { id := "d1", title := "T1", content := "fox", summary := "" }

def c3Meta2 : DocMeta := { id := "d2", title := "T2", content := "dog", summary := "" }

def c3State : SearchState :=
  { documents := [("d1", c3Meta1), ("d2", c3Meta2)], faissVectors := [],
    embeddings := [], documentIds := [], bm25Docs := [("fox", "d1"), ("dog", "d2")] }

def c3r : SResult :=
  { id := "d2_keyword", documentId := "d2", title := "T2", content := "dog",
    relevanceScore := 3 / 5, searchType := "keyword" }

unseal Rat.add Rat.mul Rat.sub Rat.inv Rat.ofScientific in
theorem removeDocument_idempotent_and_absent_witness :
    removeDocumentFromIndex (removeDocumentFromIndex c3State "d1") "d1" =
      removeDocumentFromIndex c3State "d1" ∧
    c3r.documentId ≠ "d1" :=
  ⟨(removeDocument_idempotent_and_absent c3State "d1" (Except.ok none)
      (Except.ok [("d2", 1)]) "q"
      { limit := 10, threshold := 0, useHybrid := true,
        includeHighlights := false } [c3r] c3r).1,
   (removeDocument_idempotent_and_absent c3State "d1" (Except.ok none)
      (Except.ok [("d2", 1)]) "q"
      { limit := 10, threshold := 0, useHybrid := true,
        includeHighlights := false } [c3r] c3r).2
     (by rfl) (by decide)⟩

/-! ## C9: highlight count, order, and non-overlap -/

/-- Every span the scanner emits is non-empty (`end = start + wordLength`,
`wordLength ≥ 1`). -/
theorem scanMatches_lt (w0 : Char) (ws : List Char) :
    ∀ n hay i p, hay.length ≤ n → p ∈ scanMatches w0 ws hay i → p.1 < p.2 := by
  intro n
  induction n with
  | zero =>
    intro hay i p hlen hp
    cases hay with
    | nil => simp [scanMatches] at hp
    | cons c rest => simp at hlen
  | succ m ih =>
    intro hay i p hlen hp
    cases hay with
    | nil => simp [scanMatches] at hp
    | cons c rest =>
      rw [scanMatches] at hp
      by_cases hsw : startsWith (w0 :: ws) (c :: rest)
      · rw [if_pos hsw] at hp
        rcases List.mem_cons.mp hp with rfl | hp'
        · show i < i + (ws.length + 1)
          omega
        · refine ih _ _ p ?_ hp'
          have := (List.drop_sublist ws.length rest).length_le
          simp only [List.length_cons] at hlen
          omega
      · rw [if_neg hsw] at hp
        refine ih rest _ p ?_ hp
        simp only [List.length_cons] at hlen
        omega

theorem wordHighlights_lt (content : List Char) (w : List Char)
    (h : Highlight) (hh : h ∈ wordHighlights content w) :
    h.startIndex < h.endIndex := by
  match w with
  | [] => simp [wordHighlights] at hh
  | w0 :: ws =>
    obtain ⟨p, hp, rfl⟩ := List.mem_map.mp hh
    exact scanMatches_lt w0 ws (content.map Char.toLower).length _ _ p
      (Nat.le_refl _) hp

/-- Membership in the word-major collection pass. -/
theorem mem_collectHighlights (content : String) (ws : List (List Char)) :
    ∀ acc h, h ∈ ws.foldl (fun acc w =>
        if w.length > 2 then acc ++ wordHighlights content.data w else acc) acc →
      h ∈ acc ∨ ∃ w, h ∈ wordHighlights content.data w := by
  induction ws with
  | nil => intro acc h hh; exact Or.inl hh
  | cons w ws ih =>
    intro acc h hh
    rcases ih _ h hh with hmem | hex
    · simp only [] at hmem
      by_cases hw : w.length > 2
      · rw [if_pos hw] at hmem
        rcases List.mem_append.mp hmem with h1 | h2
        · exact Or.inl h1
        · exact Or.inr ⟨w, h2⟩
      · rw [if_neg hw] at hmem
        exact Or.inl hmem
    · exact Or.inr hex

/-- The greedy filtering pass: over a start-sorted list of non-empty spans,
the kept spans stay start-sorted and pairwise disjoint.  The coded overlap
test misses only the strict-containment case `h.start < e.start`, which the
sort order rules out. -/
theorem greedy_filter_good :
    ∀ (l kept : List Highlight),
      (∀ h ∈ l, h.startIndex < h.endIndex) →
      List.Pairwise (fun a b => a.startIndex ≤ b.startIndex) l →
      List.Pairwise (fun a b => a.startIndex ≤ b.startIndex) kept →
      List.Pairwise (fun a b =>
        a.endIndex ≤ b.startIndex ∨ b.endIndex ≤ a.startIndex) kept →
      (∀ e ∈ kept, ∀ h ∈ l, e.startIndex ≤ h.startIndex) →
      List.Pairwise (fun a b => a.startIndex ≤ b.startIndex)
        (l.foldl (fun kept h =>
          if hasOverlap kept h then kept else kept ++ [h]) kept) ∧
      List.Pairwise (fun a b =>
        a.endIndex ≤ b.startIndex ∨ b.endIndex ≤ a.startIndex)
        (l.foldl (fun kept h =>
          if hasOverlap kept h then kept else kept ++ [h]) kept) := by
  intro l
  induction l with
  | nil =>
    intro kept _ _ hks hkd _
    exact ⟨hks, hkd⟩
  | cons h l ih =>
    intro kept hne hls hks hkd hcross
    simp only [List.foldl_cons]
    by_cases hov : hasOverlap kept h
    · rw [if_pos hov]
      exact ih kept (fun x hx => hne x (List.mem_cons_of_mem _ hx))
        hls.of_cons hks hkd
        (fun e he x hx => hcross e he x (List.mem_cons_of_mem _ hx))
    · rw [if_neg hov]
      have hnov : ∀ e ∈ kept,
          e.endIndex ≤ h.startIndex ∨ h.endIndex ≤ e.startIndex := by
        intro e he
        have hovf : hasOverlap kept h = false := Bool.eq_false_iff.mpr hov
        have hany := List.any_eq_false.mp hovf e he
        simp only [Bool.or_eq_true, Bool.and_eq_true, decide_eq_true_eq,
          not_or, not_and] at hany
        have hstart := hcross e he h (List.mem_cons_self _ _)
        left
        have := hany.1 hstart
        omega
      refine ih (kept ++ [h])
        (fun x hx => hne x (List.mem_cons_of_mem _ hx)) hls.of_cons ?_ ?_ ?_
      · rw [List.pairwise_append]
        refine ⟨hks, List.pairwise_singleton _ _, ?_⟩
        intro e he x hx
        rcases List.mem_singleton.mp hx with rfl
        exact hcross e he x (List.mem_cons_self _ _)
      · rw [List.pairwise_append]
        refine ⟨hkd, List.pairwise_singleton _ _, ?_⟩
        intro e he x hx
        rcases List.mem_singleton.mp hx with rfl
        exact hnov e he
      · intro e he x hx
        rcases List.mem_append.mp he with he' | he'
        · exact hcross e he' x (List.mem_cons_of_mem _ hx)
        · rcases List.mem_singleton.mp he' with rfl
          exact List.rel_of_pairwise_cons hls hx

instance : IsTotal Highlight (fun a b => a.startIndex ≤ b.startIndex) :=
  ⟨fun a b => Nat.le_total _ _⟩

instance : IsTrans Highlight (fun a b => a.startIndex ≤ b.startIndex) :=
  ⟨fun _ _ _ hab hbc => Nat.le_trans hab hbc⟩

/-- C9: `generateHighlights` returns at most 10 highlights, ordered by
ascending `startIndex`, and no two returned highlights have intersecting
`[startIndex, endIndex)` ranges: any pair in output order is separated
(`a.endIndex ≤ b.startIndex` or `b.endIndex ≤ a.startIndex`). -/
theorem generateHighlights_spec (content query : String) :
    (generateHighlights content query).length ≤ 10 ∧
    List.Pairwise (fun a b => a.startIndex ≤ b.startIndex)
      (generateHighlights content query) ∧
    List.Pairwise (fun a b =>
      a.endIndex ≤ b.startIndex ∨ b.endIndex ≤ a.startIndex)
      (generateHighlights content query) := by
  unfold generateHighlights
  refine ⟨by simpa using List.length_take_le _ _, ?_⟩
  have hne : ∀ h ∈ (splitWsChars (query.data.map Char.toLower)).foldl
      (fun acc w =>
        if w.length > 2 then acc ++ wordHighlights content.data w else acc) [],
      h.startIndex < h.endIndex := by
    intro h hh
    rcases mem_collectHighlights content _ [] h hh with hmem | ⟨w, hw⟩
    · simp at hmem
    · exact wordHighlights_lt content.data w h hw
  have hsorted := List.sorted_insertionSort
    (fun a b : Highlight => a.startIndex ≤ b.startIndex)
    ((splitWsChars (query.data.map Char.toLower)).foldl
      (fun acc w =>
        if w.length > 2 then acc ++ wordHighlights content.data w else acc) [])
  have hne' : ∀ h ∈ ((splitWsChars (query.data.map Char.toLower)).foldl
      (fun acc w =>
        if w.length > 2 then acc ++ wordHighlights content.data w else acc)
      []).insertionSort (fun a b => a.startIndex ≤ b.startIndex),
      h.startIndex < h.endIndex := by
    intro h hh
    exact hne h ((List.mem_insertionSort _).mp hh)
  obtain ⟨hs, hd⟩ := greedy_filter_good _ [] hne' hsorted
    (List.Pairwise.nil) (List.Pairwise.nil) (by simp)
  exact ⟨(hs.sublist (List.take_sublist _ _)),
    (hd.sublist (List.take_sublist _ _))⟩
